import Mathlib

/-!
Verification of the search-result harvesting pipeline of the
`url_scrapper` repository (files `scrapper.py` and `app.py`).

Strings are modelled as `List Char`; each Python helper used by the
pipeline (`str.strip`, `str.lower`, `str.split(sep)[0]`, `str.startswith`,
substring containment via `in`, `urllib.parse.urlparse`) is given a
faithful executable counterpart.  ASCII approximations of the Unicode
behaviour of `str.lower`/`str.strip` are used; every string reaching these
functions in the pipeline is ASCII.
-/

/-- Python `str.strip` whitespace test (ASCII part: space, \t, \n, \r, \v, \f). -/
def pyIsSpace (c : Char) : Bool :=
  c.toNat == 32 || c.toNat == 9 || c.toNat == 10 || c.toNat == 13 ||
    c.toNat == 11 || c.toNat == 12

/-- Python `str.lower` on one character (ASCII part). -/
def pyLower (c : Char) : Char :=
  if 65 ≤ c.toNat && c.toNat ≤ 90 then Char.ofNat (c.toNat + 32) else c

/-- Python `str.strip()`: drop leading and trailing whitespace. -/
def pyStrip (s : List Char) : List Char :=
  (((s.dropWhile pyIsSpace).reverse.dropWhile pyIsSpace)).reverse

/-- Evaluating `Char.ofNat` at a valid code point. -/
theorem toNat_ofNat_valid {n : Nat} (h : n.isValidChar) :
    (Char.ofNat n).toNat = n := by
  rw [Char.ofNat, dif_pos h]
  rfl

theorem pyLower_toNat_of_upper {c : Char}
    (h1 : 65 ≤ c.toNat) (h2 : c.toNat ≤ 90) :
    (pyLower c).toNat = c.toNat + 32 := by
  have hv : (c.toNat + 32).isValidChar := Or.inl (by omega)
  have hcond : (65 ≤ c.toNat && c.toNat ≤ 90) = true := by simp [h1, h2]
  simp only [pyLower, hcond, if_true]
  exact toNat_ofNat_valid hv

theorem pyLower_eq_self_of_not_upper {c : Char}
    (h : ¬ (65 ≤ c.toNat ∧ c.toNat ≤ 90)) : pyLower c = c := by
  simp only [pyLower]
  rw [if_neg (by simpa using h)]

theorem pyLower_idem (c : Char) : pyLower (pyLower c) = pyLower c := by
  by_cases h : 65 ≤ c.toNat ∧ c.toNat ≤ 90
  · have ht := pyLower_toNat_of_upper h.1 h.2
    exact pyLower_eq_self_of_not_upper (by omega)
  · rw [pyLower_eq_self_of_not_upper h, pyLower_eq_self_of_not_upper h]

theorem pyIsSpace_eq_false_of_ge {c : Char} (h : 33 ≤ c.toNat) :
    pyIsSpace c = false := by
  simp only [pyIsSpace]
  simp only [Bool.or_eq_false_iff, beq_eq_false_iff_ne, ne_eq]
  omega

/-- `pyLower` does not change whether a character is whitespace. -/
theorem pyIsSpace_pyLower (c : Char) : pyIsSpace (pyLower c) = pyIsSpace c := by
  by_cases h : 65 ≤ c.toNat ∧ c.toNat ≤ 90
  · have ht := pyLower_toNat_of_upper h.1 h.2
    rw [pyIsSpace_eq_false_of_ge (by omega), pyIsSpace_eq_false_of_ge (by omega)]
  · rw [pyLower_eq_self_of_not_upper h]

/-! ### Generic list helpers -/

theorem list_map_eq_self_of_fixed {α : Type} {f : α → α} :
    ∀ {l : List α}, (∀ a ∈ l, f a = a) → l.map f = l
  | [], _ => rfl
  | a :: t, h => by
    simp only [List.map_cons]
    rw [h a (List.mem_cons_self a t),
      list_map_eq_self_of_fixed (fun b hb => h b (List.mem_cons_of_mem a hb))]

theorem dropWhile_eq_self_of_head {α : Type} {p : α → Bool} {l : List α}
    (h : ∀ a, l.head? = some a → p a = false) : l.dropWhile p = l := by
  cases l with
  | nil => rfl
  | cons a t => exact List.dropWhile_cons_of_neg (by simp [h a rfl])

theorem takeWhile_eq_self_of_all {α : Type} {p : α → Bool} {l : List α}
    (h : ∀ a ∈ l, p a = true) : l.takeWhile p = l :=
  List.takeWhile_eq_self_iff.mpr h

theorem head?_of_pref {α : Type} {l₁ l₂ : List α} (h : l₁ <+: l₂)
    (hne : l₁ ≠ []) : l₂.head? = l₁.head? := by
  obtain ⟨t, rfl⟩ := h
  cases l₁ with
  | nil => exact absurd rfl hne
  | cons a l => rfl

/-! ### `pyStrip` structural lemmas -/

/-- After dropping leading whitespace from both ends, the result is a
front piece of the string with leading whitespace removed. -/
theorem pyStrip_pref (s : List Char) :
    pyStrip s <+: s.dropWhile pyIsSpace := by
  have hF : ((s.dropWhile pyIsSpace).reverse.dropWhile pyIsSpace)
      <:+ (s.dropWhile pyIsSpace).reverse := List.dropWhile_suffix pyIsSpace
  have hF3 : (pyStrip s).reverse <:+ (s.dropWhile pyIsSpace).reverse := by
    simp only [pyStrip, List.reverse_reverse]
    exact hF
  exact List.reverse_suffix.mp hF3

/-- `pyStrip` returns a contiguous substring of its input. -/
theorem pyStrip_substring (s : List Char) : pyStrip s <:+: s :=
  ( List.IsPrefix.isInfix (pyStrip_pref s)).trans
    ( List.IsSuffix.isInfix (List.dropWhile_suffix pyIsSpace))

theorem pyStrip_subset (s : List Char) : pyStrip s ⊆ s :=
  fun _ hc => (pyStrip_substring s).sublist.subset hc

theorem pyStrip_head (s : List Char) (a : Char)
    (ha : (pyStrip s).head? = some a) : pyIsSpace a = false := by
  have hne : pyStrip s ≠ [] := by
    intro h
    rw [h] at ha
    cases ha
  have heq : (s.dropWhile pyIsSpace).head? = (pyStrip s).head? :=
    head?_of_pref (pyStrip_pref s) hne
  have h2 := List.head?_dropWhile_not pyIsSpace s
  rw [heq, ha] at h2
  exact h2

theorem pyStrip_last (s : List Char) (a : Char)
    (ha : (pyStrip s).getLast? = some a) : pyIsSpace a = false := by
  rw [pyStrip, List.getLast?_reverse] at ha
  have h2 := List.head?_dropWhile_not pyIsSpace (s.dropWhile pyIsSpace).reverse
  rw [ha] at h2
  exact h2

theorem pyStrip_eq_self {s : List Char}
    (h1 : ∀ a, s.head? = some a → pyIsSpace a = false)
    (h2 : ∀ a, s.getLast? = some a → pyIsSpace a = false) :
    pyStrip s = s := by
  have d1 : s.dropWhile pyIsSpace = s := dropWhile_eq_self_of_head h1
  have d2 : s.reverse.dropWhile pyIsSpace = s.reverse := by
    apply dropWhile_eq_self_of_head
    intro a ha
    rw [List.head?_reverse] at ha
    exact h2 a ha
  rw [pyStrip, d1, d2, List.reverse_reverse]

theorem pyStrip_idem (s : List Char) : pyStrip (pyStrip s) = pyStrip s :=
  pyStrip_eq_self (pyStrip_head s) (pyStrip_last s)

theorem pyStrip_eq_self_of_no_ws {s : List Char}
    (h : ∀ c ∈ s, pyIsSpace c = false) : pyStrip s = s :=
  pyStrip_eq_self
    (fun a ha => h a (List.mem_of_mem_head? (Option.mem_def.mpr ha)))
    (fun a ha => h a (List.mem_of_mem_getLast? (Option.mem_def.mpr ha)))

/-- `pyStrip` commutes with character-wise lower-casing. -/
theorem pyStrip_map_pyLower (s : List Char) :
    pyStrip (s.map pyLower) = (pyStrip s).map pyLower := by
  have hcomp : (pyIsSpace ∘ pyLower) = pyIsSpace := funext pyIsSpace_pyLower
  simp only [pyStrip, List.dropWhile_map, hcomp, ← List.map_reverse]

theorem takeWhile_takeWhile_bool {α : Type} (p q : α → Bool) (l : List α) :
    (l.takeWhile q).takeWhile p = l.takeWhile (fun a => q a && p a) := by
  induction l with
  | nil => rfl
  | cons a t ih =>
    cases hq : q a with
    | false => simp [List.takeWhile_cons, hq]
    | true =>
      cases hp : p a with
      | false => simp [List.takeWhile_cons, hq, hp]
      | true => simp [List.takeWhile_cons, hq, hp, ih]

/-! ### The normalizer (`normalize_url_for_compare`, `scrapper.py` 22–42) -/

/-- Python substring containment `needle in hay`. -/
def containsSub (needle : List Char) : List Char → Bool
  | [] => needle.isEmpty
  | c :: t => needle.isPrefixOf (c :: t) || containsSub needle t

/-- Lines 26–29 of `scrapper.py`: strip exactly one leading `http://` or
`https://`.  (`url.replace(pfx, "", 1)` guarded by `url.startswith(pfx)`
removes exactly the leading occurrence.) -/
def stripScheme (s : List Char) : List Char :=
  if ("http://".toList).isPrefixOf s then s.drop 7
  else if ("https://".toList).isPrefixOf s then s.drop 8
  else s

/-- `normalize_url_for_compare(url)` from `scrapper.py` lines 22–42:
`strip().lower()`; strip one scheme; `split('/')[0].split('?')[0].split('#')[0]`;
strip a leading `www.`; `split(':')[0]` when a colon is present; final `strip()`. -/
def normalize_url_for_compare (url : List Char) : List Char :=
  let u1 := (pyStrip url).map pyLower
  let u2 := stripScheme u1
  let u3 := ((u2.takeWhile (· != '/')).takeWhile (· != '?')).takeWhile (· != '#')
  let u4 := if ("www.".toList).isPrefixOf u3 then u3.drop 4 else u3
  let u5 := if u4.contains ':' then u4.takeWhile (· != ':') else u4
  pyStrip u5

/-- The value the normalizer holds just before its port-stripping step
(same chain as `normalize_url_for_compare` up to line 36). -/
def hostPart (url : List Char) : List Char :=
  let u1 := (pyStrip url).map pyLower
  let u2 := stripScheme u1
  let u3 := ((u2.takeWhile (· != '/')).takeWhile (· != '?')).takeWhile (· != '#')
  if ("www.".toList).isPrefixOf u3 then u3.drop 4 else u3

/-- Remove a trailing `:port` segment: drop from the last colon on. -/
def dropTrailingPort (s : List Char) : List Char :=
  ((s.reverse.dropWhile (· != ':')).drop 1).reverse

/-- Normalizer as worded by the spec (§4.1): "lower-case and trim; strip a
leading `http://` or `https://` scheme (exactly one); take the substring up
to the first `/`, `?`, or `#`, whichever occurs first; strip a leading
`www.`; strip a trailing `:port` if a colon remains."  Kept separate from
`normalize_url_for_compare` so the two can be compared. -/
def normalize_spec (u : List Char) : List Char :=
  let s1 := pyStrip (u.map pyLower)
  let s2 := stripScheme s1
  let s3 := s2.takeWhile (fun c => !(c == '/' || c == '?' || c == '#'))
  let s4 := if ("www.".toList).isPrefixOf s3 then s3.drop 4 else s3
  if s4.contains ':' then dropTrailingPort s4 else s4

/-! ### `urllib.parse.urlparse`: the `scheme` and `netloc` components

Model of cpython `urlsplit` restricted to the two fields the pipeline
reads.  A scheme is recognised when a colon is present at position > 0,
the first character is a letter and every character before the colon is a
scheme character; the netloc follows a leading `//` and runs up to the
first `/`, `?` or `#`. -/

def isSchemeChar (c : Char) : Bool :=
  c.isAlpha || c.isDigit || c == '+' || c == '-' || c == '.'

/-- Split off `scheme:` when present; returns (scheme?, remainder). -/
def splitScheme (url : List Char) : Option (List Char) × List Char :=
  let pre := url.takeWhile (· != ':')
  if pre.length < url.length
      && (match pre.head? with
          | some c => c.isAlpha
          | none => false)
      && pre.all isSchemeChar then
    (some (pre.map pyLower), url.drop (pre.length + 1))
  else
    (none, url)

/-- `urlparse(url).netloc`. -/
def urlparse_netloc (url : List Char) : List Char :=
  let rest := (splitScheme url).2
  if ("//".toList).isPrefixOf rest then
    (rest.drop 2).takeWhile (fun c => !(c == '/' || c == '?' || c == '#'))
  else
    []

/-- `urlparse(url).scheme` (empty string when no scheme is recognised). -/
def urlparse_scheme (url : List Char) : List Char :=
  ((splitScheme url).1).getD []

/-! ### Static exclusion list and per-link filter -/

/-- `EXCLUDE_DOMAINS` (identical in `scrapper.py` and `app.py`). -/
def EXCLUDE_DOMAINS : List (List Char) :=
  ["youtube.com".toList, "twitter.com".toList, "x.com".toList,
   "instagram.com".toList, "linkedin.com".toList, "justdial.com".toList,
   "quora.com".toList, "reddit.com".toList, "telegram.org".toList]

/-- `any(excluded in domain for excluded in EXCLUDE_DOMAINS)`. -/
def isExcluded (domain : List Char) : Bool :=
  EXCLUDE_DOMAINS.any (fun e => containsSub e domain)

/-- Per-link acceptance test shared by both variants:
`href.startswith("http") and "google." not in href and
"webcache.googleusercontent.com" not in href`. -/
def acceptHref (href : List Char) : Bool :=
  ("http".toList).isPrefixOf href
    && !(containsSub ("google.".toList) href)
    && !(containsSub ("webcache.googleusercontent.com".toList) href)

/-! ### Result records and page extraction -/

/-- Result record of `scrapper.py` (`{"Domain": ..., "URL": ...}`). -/
structure SearchResult where
  Domain : List Char
  URL : List Char
deriving DecidableEq, Repr

/-- Result record of `app.py` (`{"Domain": ..., "URL": ..., "Title": ...}`). -/
structure SearchResultT where
  Domain : List Char
  URL : List Char
  Title : List Char
deriving DecidableEq, Repr

/-- One page's extraction loop in `scrapper.py` (lines 90–105): the input is
the `href` attribute of each anchor (`none` when the attribute is absent). -/
def extractPage (links : List (Option (List Char))) : List SearchResult :=
  links.filterMap (fun h =>
    match h with
    | none => none
    | some href =>
      if acceptHref href then
        let domain := (urlparse_netloc href).map pyLower
        if isExcluded domain then none
        else some ⟨domain, href⟩
      else none)

/-- One page's extraction loop in `app.py` (lines 65–89): each anchor
contributes its `href` attribute and its text content; the title is the
stripped text truncated to 80 characters, falling back to the domain. -/
def extractPage_app (links : List (Option (List Char) × List Char)) :
    List SearchResultT :=
  links.filterMap (fun l =>
    match l.1 with
    | none => none
    | some href =>
      if acceptHref href then
        let domain := (urlparse_netloc href).map pyLower
        if isExcluded domain then none
        else
          let title := (pyStrip l.2).take 80
          some ⟨domain, href, if title.isEmpty then domain else title⟩
      else none)

/-! ### Block detection -/

/-- `scrapper.py` lines 82–83: the raw `page_source` is searched,
case-sensitively, for four phrases. -/
def isBlocked_scrapper (s : List Char) : Bool :=
  containsSub ("unusual traffic".toList) s
    || containsSub ("detected unusual traffic".toList) s
    || containsSub ("captcha".toList) s
    || containsSub ("To continue, please type the characters below".toList) s

/-- `app.py` lines 55–56: the page content is lower-cased first, then
searched for three phrases. -/
def isBlocked_app (content : List Char) : Bool :=
  let c := content.map pyLower
  (["unusual traffic".toList, "captcha".toList,
    "detected unusual traffic".toList]).any (fun x => containsSub x c)

/-- The claim-side contract for block detection: the lower-cased page
content contains one of the fixed phrases. -/
def blockedContract (content : List Char) : Bool :=
  (["unusual traffic".toList, "captcha".toList,
    "detected unusual traffic".toList]).any
    (fun x => containsSub x (content.map pyLower))

/-! ### The per-keyword page loop -/

/-- What one navigation attempt yields in `scrapper.py`: either a raised
navigation error (timeout etc.), or a loaded page with its `page_source`
and the `href` attributes of its anchors. -/
inductive Fetch where
  | navError : Fetch
  | ok (source : List Char) (links : List (Option (List Char))) : Fetch

/-- Pages 'loop of `scrapper.py` (lines 67–108), starting at page index
`i` with `n` pages left: a navigation error, a positive block check, or a
page with zero accepted links break the loop; otherwise the page's records
are accumulated and the next page is fetched. -/
def scrapeLoop (fetch : Nat → Fetch) : Nat → Nat → List SearchResult
  | _, 0 => []
  | i, n + 1 =>
    match fetch i with
    | Fetch.navError => []
    | Fetch.ok src links =>
      if isBlocked_scrapper src then []
      else
        let found := extractPage links
        if found.length = 0 then []
        else found ++ scrapeLoop fetch (i + 1) n

/-- `scrape_google_search(keyword, pages, ...)` from `scrapper.py`:
driver initialisation failure returns `[]` (lines 55–62); otherwise the
page loop runs from page 0. -/
def scrape_google_search (driverOk : Bool) (fetch : Nat → Fetch)
    (pages : Nat) : List SearchResult :=
  if driverOk then scrapeLoop fetch 0 pages else []

/-- One navigation attempt in `app.py`: an exception (timeout or other),
or a loaded page with its lower-casable content and its anchors
(`href` attribute and text content). -/
inductive FetchA where
  | err : FetchA
  | ok (content : List Char) (links : List (Option (List Char) × List Char)) : FetchA

/-- Page loop of `app.py` (lines 42–106). -/
def scrapeLoop_app (fetch : Nat → FetchA) : Nat → Nat → List SearchResultT
  | _, 0 => []
  | i, n + 1 =>
    match fetch i with
    | FetchA.err => []
    | FetchA.ok content links =>
      if isBlocked_app content then []
      else
        let found := extractPage_app links
        if found.length = 0 then []
        else found ++ scrapeLoop_app fetch (i + 1) n

/-- `scrape_google_search(...)` from `app.py`: a browser that failed to
initialise (`browser is None`, lines 29–32) yields `[]`. -/
def scrape_google_search_app (browserOk : Bool) (fetch : Nat → FetchA)
    (pages : Nat) : List SearchResultT :=
  if browserOk then scrapeLoop_app fetch 0 pages else []

/-! ### The keyword loop (`main`, both variants): results are accumulated
by `all_results.extend(result)` keyword by keyword. -/

/-- Per-keyword environment for the `scrapper.py` orchestrator. -/
structure KeywordEnv where
  driverOk : Bool
  fetch : Nat → Fetch

def allResults : List KeywordEnv → Nat → List SearchResult
  | [], _ => []
  | e :: rest, pages =>
    scrape_google_search e.driverOk e.fetch pages ++ allResults rest pages

theorem allResults_append (a b : List KeywordEnv) (pages : Nat) :
    allResults (a ++ b) pages = allResults a pages ++ allResults b pages := by
  induction a with
  | nil => rfl
  | cons e t ih => simp [allResults, ih]

/-! ### Deduplication -/

/-- Python-dict insertion `d[k] = v`: replace in place when the key is
present, append otherwise (dicts preserve insertion order). -/
def insertAssoc {β : Type} (m : List (List Char × β)) (k : List Char)
    (v : β) : List (List Char × β) :=
  match m with
  | [] => [(k, v)]
  | (k', v') :: rest =>
    if k' = k then (k', v) :: rest else (k', v') :: insertAssoc rest k v

/-- `f"{parsed.scheme}://{parsed.netloc}"` for a record's URL. -/
def baseURL (u : List Char) : List Char :=
  urlparse_scheme u ++ "://".toList ++ urlparse_netloc u

/-- Dedup step of `scrapper.py` `main` (lines 206–214): keyed by
`f"{parsed.scheme}://{parsed.netloc}"` of each record's URL; the stored
record's URL is replaced by that base form. -/
def dedupe_scrapper (items : List SearchResult) : List SearchResult :=
  (items.foldl
    (fun m item =>
      insertAssoc m (baseURL item.URL) ⟨item.Domain, baseURL item.URL⟩)
    []).map (·.2)

/-- Dedup key of `app.py` `main` (lines 232–234):
`urlparse(item["URL"]).netloc if url else ""`. -/
def keyApp (item : SearchResultT) : List Char :=
  if item.URL.isEmpty then [] else urlparse_netloc item.URL

/-- Dedup step of `app.py` `main` (lines 229–239): keyed by the raw
netloc; only the first record with a given key is stored, unchanged. -/
def dedupe_app (items : List SearchResultT) : List SearchResultT :=
  (items.foldl
    (fun m item =>
      if m.any (fun p => p.1 == keyApp item) then m
      else m ++ [(keyApp item, item)])
    []).map (·.2)

/-! ### Bool-level bridges -/

theorem contains_eq_true_iff {l : List Char} {a : Char} :
    l.contains a = true ↔ a ∈ l := List.elem_iff

theorem isPrefixOf_iff_exists :
    ∀ (l₁ l₂ : List Char), l₁.isPrefixOf l₂ = true ↔ ∃ t, l₂ = l₁ ++ t
  | [], l₂ => by simp
  | a :: t, [] => by simp
  | a :: t, b :: u => by
    show ((a == b) && t.isPrefixOf u) = true ↔ _
    rw [Bool.and_eq_true, beq_iff_eq, isPrefixOf_iff_exists t u]
    constructor
    · rintro ⟨rfl, s, rfl⟩
      exact ⟨s, rfl⟩
    · rintro ⟨s, hs⟩
      cases hs
      exact ⟨rfl, s, rfl⟩

theorem containsSub_iff (n : List Char) :
    ∀ (hay : List Char), containsSub n hay = true ↔ n <:+: hay := by
  intro hay
  induction hay with
  | nil =>
    simp only [containsSub, List.isEmpty_iff, List.infix_nil]
  | cons c t ih =>
    simp only [containsSub, Bool.or_eq_true, ih, List.infix_cons_iff]
    constructor
    · rintro (h1 | h2)
      · obtain ⟨s, hs⟩ := (isPrefixOf_iff_exists _ _).mp h1
        exact Or.inl ⟨s, hs.symm⟩
      · exact Or.inr h2
    · rintro (h1 | h2)
      · obtain ⟨s, hs⟩ := h1
        exact Or.inl ((isPrefixOf_iff_exists _ _).mpr ⟨s, hs.symm⟩)
      · exact Or.inr h2

theorem mem_of_isPrefixOfTrue {l₁ l₂ : List Char} (h : l₁.isPrefixOf l₂ = true) :
    ∀ c ∈ l₁, c ∈ l₂ := by
  obtain ⟨t, rfl⟩ := (isPrefixOf_iff_exists _ _).mp h
  intro c hc
  exact List.mem_append.mpr (Or.inl hc)

theorem map_pyLower_idem (l : List Char) :
    (l.map pyLower).map pyLower = l.map pyLower := by
  rw [List.map_map, show pyLower ∘ pyLower = pyLower from funext pyLower_idem]

/-! ## Claim theorems -/

/-- C10: if the browser/driver cannot be initialised at the start of a
keyword's scrape, `scrape_google_search` returns the empty result list
(in both variants), and in the keyword loop such a keyword contributes
nothing while the other keywords' results are unchanged. -/
theorem driver_init_failure_yields_empty :
    (∀ fetch pages, scrape_google_search false fetch pages = [])
    ∧ (∀ fetch pages, scrape_google_search_app false fetch pages = [])
    ∧ (∀ pre post fetch pages,
        allResults (pre ++ ⟨false, fetch⟩ :: post) pages
          = allResults pre pages ++ allResults post pages) := by
  refine ⟨fun fetch pages => rfl, fun fetch pages => rfl, ?_⟩
  intro pre post fetch pages
  rw [allResults_append]
  simp [allResults, scrape_google_search]

/-- C7: a fetched page that yields zero accepted links after filtering ends
pagination for that keyword immediately (both variants), and the keyword
loop composes per keyword, so other keywords' results are unaffected. -/
theorem zero_found_ends_pagination :
    (∀ fetch i n src links, fetch i = Fetch.ok src links →
        isBlocked_scrapper src = false → extractPage links = [] →
        scrapeLoop fetch i (n + 1) = [])
    ∧ (∀ fetch i n content links, fetch i = FetchA.ok content links →
        isBlocked_app content = false → extractPage_app links = [] →
        scrapeLoop_app fetch i (n + 1) = [])
    ∧ (∀ pre post e pages,
        allResults (pre ++ e :: post) pages
          = allResults pre pages
            ++ scrape_google_search e.driverOk e.fetch pages
            ++ allResults post pages) := by
  refine ⟨?_, ?_, ?_⟩
  · intro fetch i n src links hf hb he
    simp [scrapeLoop, hf, hb, he]
  · intro fetch i n content links hf hb he
    simp [scrapeLoop_app, hf, hb, he]
  · intro pre post e pages
    rw [allResults_append]
    simp [allResults, List.append_assoc]

/-- C7 witness: a concrete page with zero accepted links ends the loop. -/
theorem zero_found_ends_pagination_witness :
    scrapeLoop (fun _ => Fetch.ok [] [some ("/relative".toList)]) 0 5 = [] :=
  zero_found_ends_pagination.1 (fun _ => Fetch.ok [] [some ("/relative".toList)])
    0 4 [] [some ("/relative".toList)] rfl (by decide) (by decide)

/-- C5 counterexample: the claim says detection is containment in the
LOWER-CASED content, but `scrapper.py` searches the raw page source
case-sensitively, so an upper-case challenge phrase is not detected
there, while the lower-cased contract (and `app.py`) detects it. -/
theorem blocked_check_case_mismatch :
    isBlocked_scrapper ("You must solve the CAPTCHA".toList) = false
    ∧ blockedContract ("You must solve the CAPTCHA".toList) = true
    ∧ isBlocked_app ("You must solve the CAPTCHA".toList) = true := by
  exact ⟨by decide, by decide, by decide⟩

/-- C5 (amended): `app.py`'s block check is exactly containment of one of
the fixed phrases in the lower-cased content; `scrapper.py`'s check is
case-sensitive containment in the raw source; in both variants a positive
check ends paging for the current keyword immediately, and the keyword
loop continues with the other keywords independently. -/
theorem blocked_detection_amended :
    (∀ content, isBlocked_app content = blockedContract content)
    ∧ (∀ fetch i n src links, fetch i = Fetch.ok src links →
        isBlocked_scrapper src = true → scrapeLoop fetch i (n + 1) = [])
    ∧ (∀ fetch i n content links, fetch i = FetchA.ok content links →
        isBlocked_app content = true → scrapeLoop_app fetch i (n + 1) = [])
    ∧ (∀ pre post e pages,
        allResults (pre ++ e :: post) pages
          = allResults pre pages
            ++ scrape_google_search e.driverOk e.fetch pages
            ++ allResults post pages) := by
  refine ⟨fun content => rfl, ?_, ?_, ?_⟩
  · intro fetch i n src links hf hb
    simp [scrapeLoop, hf, hb]
  · intro fetch i n content links hf hb
    simp [scrapeLoop_app, hf, hb]
  · intro pre post e pages
    rw [allResults_append]
    simp [allResults, List.append_assoc]

/-- C5 witness: a concrete blocked page ends the loop at once. -/
theorem blocked_detection_amended_witness :
    scrapeLoop (fun _ => Fetch.ok ("please solve the captcha".toList)
        [some ("https://a.com/x".toList)]) 0 7 = [] :=
  blocked_detection_amended.2.1
    (fun _ => Fetch.ok ("please solve the captcha".toList)
      [some ("https://a.com/x".toList)])
    0 6 ("please solve the captcha".toList) [some ("https://a.com/x".toList)]
    rfl (by decide)

/-- The claim-side exclusion contract: containment of a configured entry,
compared case-insensitively (both sides lower-cased). -/
def excludedContract (domain : List Char) : Bool :=
  EXCLUDE_DOMAINS.any (fun e => containsSub (e.map pyLower) (domain.map pyLower))

theorem exclusion_entries_lower :
    EXCLUDE_DOMAINS.map (fun e => e.map pyLower) = EXCLUDE_DOMAINS := by decide

/-- C6: static exclusion is substring containment of a configured entry:
`m.youtube.com` is excluded by the entry `youtube.com`; `isExcluded d` holds
exactly when some configured entry is a contiguous substring of `d`; and on
the lower-cased domains the pipeline feeds it, the check agrees with the
case-insensitive containment contract. -/
theorem static_exclusion_substring :
    isExcluded ("m.youtube.com".toList) = true
    ∧ (∀ d, isExcluded d = true ↔ ∃ e ∈ EXCLUDE_DOMAINS, e <:+: d)
    ∧ (∀ netloc, isExcluded (netloc.map pyLower) = excludedContract netloc) := by
  refine ⟨by decide, ?_, ?_⟩
  · intro d
    rw [isExcluded, List.any_eq_true]
    constructor
    · rintro ⟨e, he, hc⟩
      exact ⟨e, he, (containsSub_iff e d).mp hc⟩
    · rintro ⟨e, he, hc⟩
      exact ⟨e, he, (containsSub_iff e d).mpr hc⟩
  · intro netloc
    rw [isExcluded, excludedContract]
    conv_lhs => rw [← exclusion_entries_lower]
    rw [List.any_map]
    rfl

/-! ### Dedup fold lemmas -/

def dedupeScrAux (m : List (List Char × SearchResult))
    (items : List SearchResult) : List (List Char × SearchResult) :=
  items.foldl
    (fun m item =>
      insertAssoc m (baseURL item.URL) ⟨item.Domain, baseURL item.URL⟩) m

theorem dedupe_scrapper_eq_aux (items : List SearchResult) :
    dedupe_scrapper items = (dedupeScrAux [] items).map (·.2) := rfl

def dedupeAppAux (m : List (List Char × SearchResultT))
    (items : List SearchResultT) : List (List Char × SearchResultT) :=
  items.foldl
    (fun m item =>
      if m.any (fun p => p.1 == keyApp item) then m
      else m ++ [(keyApp item, item)]) m

theorem dedupe_app_eq_aux (items : List SearchResultT) :
    dedupe_app items = (dedupeAppAux [] items).map (·.2) := rfl

theorem insertAssoc_keys {β : Type} (m : List (List Char × β)) (k : List Char)
    (v : β) :
    (insertAssoc m k v).map (·.1)
      = if k ∈ m.map (·.1) then m.map (·.1) else m.map (·.1) ++ [k] := by
  induction m with
  | nil => simp [insertAssoc]
  | cons q rest ih =>
    obtain ⟨k', v'⟩ := q
    by_cases h : k' = k
    · simp only [insertAssoc, if_pos h, List.map_cons]
      rw [if_pos (List.mem_cons.mpr (Or.inl h.symm))]
    · simp only [insertAssoc, if_neg h, List.map_cons, ih]
      by_cases h2 : k ∈ rest.map (·.1)
      · rw [if_pos h2, if_pos (List.mem_cons.mpr (Or.inr h2))]
      · rw [if_neg h2, if_neg ?_]
        · rfl
        · intro hmem
          rcases List.mem_cons.mp hmem with h3 | h3
          · exact h h3.symm
          · exact h2 h3

theorem insertAssoc_mem {β : Type} {m : List (List Char × β)} {k : List Char}
    {v : β} : ∀ p ∈ insertAssoc m k v, p = (k, v) ∨ p ∈ m := by
  induction m with
  | nil =>
    intro p hp
    simp [insertAssoc] at hp
    exact Or.inl hp
  | cons q rest ih =>
    obtain ⟨k', v'⟩ := q
    intro p hp
    by_cases h : k' = k
    · subst h
      simp only [insertAssoc, if_pos rfl] at hp
      rcases List.mem_cons.mp hp with h1 | h1
      · exact Or.inl h1
      · exact Or.inr (List.mem_cons_of_mem _ h1)
    · simp only [insertAssoc, if_neg h] at hp
      rcases List.mem_cons.mp hp with h1 | h1
      · exact Or.inr (h1 ▸ List.mem_cons_self _ _)
      · rcases ih p h1 with h2 | h2
        · exact Or.inl h2
        · exact Or.inr (List.mem_cons_of_mem _ h2)

theorem dedupeScrAux_inv (items : List SearchResult) :
    ∀ m : List (List Char × SearchResult),
      (m.map (·.1)).Nodup → (∀ p ∈ m, p.2.URL = p.1) →
      ((dedupeScrAux m items).map (·.1)).Nodup
        ∧ (∀ p ∈ dedupeScrAux m items, p.2.URL = p.1) := by
  induction items with
  | nil =>
    intro m h1 h2
    exact ⟨h1, h2⟩
  | cons item rest ih =>
    intro m h1 h2
    have hstep : dedupeScrAux m (item :: rest)
        = dedupeScrAux
            (insertAssoc m (baseURL item.URL)
              ⟨item.Domain, baseURL item.URL⟩) rest := rfl
    rw [hstep]
    apply ih
    · rw [insertAssoc_keys]
      by_cases h : baseURL item.URL ∈ m.map (·.1)
      · rwa [if_pos h]
      · rw [if_neg h, List.nodup_append]
        refine ⟨h1, List.nodup_singleton _, ?_⟩
        intro a ha hb
        rw [List.mem_singleton] at hb
        subst hb
        exact h ha
    · intro p hp
      rcases insertAssoc_mem p hp with h | h
      · rw [h]
      · exact h2 p h

theorem dedupeScrAux_mem (items : List SearchResult) :
    ∀ (m : List (List Char × SearchResult)) p, p ∈ dedupeScrAux m items →
      p ∈ m ∨ ∃ i ∈ items,
        p = (baseURL i.URL, ⟨i.Domain, baseURL i.URL⟩) := by
  induction items with
  | nil =>
    intro m p hp
    exact Or.inl hp
  | cons item rest ih =>
    intro m p hp
    rcases ih _ p hp with h | ⟨i, hi, he⟩
    · rcases insertAssoc_mem p h with h2 | h2
      · exact Or.inr ⟨item, List.mem_cons_self _ _, h2⟩
      · exact Or.inl h2
    · exact Or.inr ⟨i, List.mem_cons_of_mem _ hi, he⟩

theorem any_beq_false_imp {β : Type} {m : List (List Char × β)} {k : List Char}
    (h : (m.any (fun p => p.1 == k)) = false) : k ∉ m.map (·.1) := by
  intro hk
  obtain ⟨p, hpm, hpe⟩ := List.mem_map.mp hk
  have hb : (p.1 == k) = true := by rw [beq_iff_eq, hpe]
  have h2 : (m.any (fun p => p.1 == k)) = true := by
    apply List.any_eq_true.mpr
    exact ⟨p, hpm, hb⟩
  rw [h] at h2
  cases h2

theorem dedupeAppAux_inv (items : List SearchResultT) :
    ∀ m, (m.map (·.1)).Nodup → (∀ p ∈ m, p.1 = keyApp p.2) →
      ((dedupeAppAux m items).map (·.1)).Nodup
        ∧ (∀ p ∈ dedupeAppAux m items, p.1 = keyApp p.2) := by
  induction items with
  | nil =>
    intro m h1 h2
    exact ⟨h1, h2⟩
  | cons item rest ih =>
    intro m h1 h2
    have hstep : dedupeAppAux m (item :: rest)
        = dedupeAppAux
            (if m.any (fun p => p.1 == keyApp item) then m
             else m ++ [(keyApp item, item)]) rest := rfl
    rw [hstep]
    by_cases hcase : (m.any (fun p => p.1 == keyApp item)) = true
    · rw [if_pos hcase]
      exact ih m h1 h2
    · rw [if_neg hcase]
      apply ih
      · rw [List.map_append, List.nodup_append]
        refine ⟨h1, by simp, ?_⟩
        intro a ha hb
        simp only [List.map_cons, List.map_nil, List.mem_singleton] at hb
        subst hb
        exact any_beq_false_imp (Bool.eq_false_iff.mpr hcase) ha
      · intro p hp
        rcases List.mem_append.mp hp with h | h
        · exact h2 p h
        · rw [List.mem_singleton] at h
          rw [h]

theorem dedupeAppAux_first (items : List SearchResultT) :
    ∀ (m : List (List Char × SearchResultT)) k v, (k, v) ∈ dedupeAppAux m items →
      (k, v) ∈ m
      ∨ (k ∉ m.map (·.1) ∧ k = keyApp v
          ∧ (items.filter (fun i => keyApp i == k)).head? = some v) := by
  induction items with
  | nil =>
    intro m k v hp
    exact Or.inl hp
  | cons item rest ih =>
    intro m k v hp
    have hstep : dedupeAppAux m (item :: rest)
        = dedupeAppAux
            (if m.any (fun p => p.1 == keyApp item) then m
             else m ++ [(keyApp item, item)]) rest := rfl
    rw [hstep] at hp
    by_cases hcase : (m.any (fun p => p.1 == keyApp item)) = true
    · rw [if_pos hcase] at hp
      rcases ih m k v hp with h | ⟨hk, hkv, hf⟩
      · exact Or.inl h
      · have hne : (keyApp item == k) = false := by
          rw [beq_eq_false_iff_ne]
          intro he
          obtain ⟨p, hpm, hpe⟩ := List.any_eq_true.mp hcase
          rw [beq_iff_eq] at hpe
          exact hk (by
            rw [← he, ← hpe]
            exact List.mem_map_of_mem _ hpm)
        right
        refine ⟨hk, hkv, ?_⟩
        rw [List.filter_cons_of_neg (by simp [hne])]
        exact hf
    · rw [if_neg hcase] at hp
      have hkeys := any_beq_false_imp (Bool.eq_false_iff.mpr hcase)
      rcases ih _ k v hp with h | ⟨hk, hkv, hf⟩
      · rcases List.mem_append.mp h with h2 | h2
        · exact Or.inl h2
        · rw [List.mem_singleton, Prod.mk.injEq] at h2
          obtain ⟨hk2, hv2⟩ := h2
          right
          subst hk2
          subst hv2
          refine ⟨hkeys, rfl, ?_⟩
          rw [List.filter_cons_of_pos (by simp)]
          rfl
      · right
        have hk1 : k ∉ m.map (·.1) := by
          intro hmem
          exact hk (by
            rw [List.map_append]
            exact List.mem_append.mpr (Or.inl hmem))
        have hk2 : k ≠ keyApp item := by
          intro he
          exact hk (by
            rw [List.map_append]
            refine List.mem_append.mpr (Or.inr ?_)
            simp [he])
        refine ⟨hk1, hkv, ?_⟩
        rw [List.filter_cons_of_neg (by simp [Ne.symm hk2])] at *
        exact hf

/-- C2 counterexample: post-dedup collections CAN contain two records with
the same domain.  In `scrapper.py` the key is `scheme://netloc`, so the
same domain reached over `http` and `https` yields two records; in
`app.py` the key is the raw (case-preserved) netloc, so netlocs differing
only in case yield two records with the same (lower-cased) domain field. -/
theorem dedupe_shared_domain_counterexample :
    (dedupe_scrapper [⟨"a.com".toList, "http://a.com/x".toList⟩,
        ⟨"a.com".toList, "https://a.com/y".toList⟩]).map (·.Domain)
      = ["a.com".toList, "a.com".toList]
    ∧ (dedupe_app [⟨"a.com".toList, "https://A.com/x".toList, "t".toList⟩,
        ⟨"a.com".toList, "https://a.com/y".toList, "t".toList⟩]).map (·.Domain)
      = ["a.com".toList, "a.com".toList] := by
  exact ⟨by decide, by decide⟩

/-- C2 (amended): deduplication yields at most one record per distinct
KEY — in `scrapper.py` the key is the base URL `scheme://netloc` (which
is also the stored record's URL), in `app.py` the raw netloc of the
record's URL; two records may still share a domain when their URLs differ
in scheme or in netloc case. -/
theorem dedupe_at_most_one_per_key :
    (∀ items, ((dedupe_scrapper items).map (·.URL)).Nodup)
    ∧ (∀ items, ((dedupe_app items).map keyApp).Nodup) := by
  constructor
  · intro items
    obtain ⟨h1, h2⟩ := dedupeScrAux_inv items [] (by simp) (by simp)
    rw [dedupe_scrapper_eq_aux, List.map_map]
    have he : ((dedupeScrAux [] items).map ((·.URL) ∘ (·.2)))
        = (dedupeScrAux [] items).map (·.1) :=
      List.map_congr_left (fun p hp => h2 p hp)
    rw [he]
    exact h1
  · intro items
    obtain ⟨h1, h2⟩ := dedupeAppAux_inv items [] (by simp) (by simp)
    rw [dedupe_app_eq_aux, List.map_map]
    have he : ((dedupeAppAux [] items).map (keyApp ∘ (·.2)))
        = (dedupeAppAux [] items).map (·.1) :=
      List.map_congr_left (fun p hp => (h2 p hp).symm)
    rw [he]
    exact h1

/-- C1 counterexample: on the claim's own example input, `app.py`'s dedup
keeps the first-seen record UNCHANGED — its URL is the full original link
`https://a.com/x`, not the base form `https://a.com` the claim requires. -/
theorem dedupe_first_seen_counterexample :
    (dedupe_app [⟨"a.com".toList, "https://a.com/x".toList, "a.com".toList⟩,
        ⟨"a.com".toList, "https://a.com/y".toList, "a.com".toList⟩]).map (·.URL)
      = ["https://a.com/x".toList]
    ∧ ("https://a.com/x".toList ≠ "https://a.com".toList) := by
  exact ⟨by decide, by decide⟩

/-- C1 (amended): in `scrapper.py` dedup keys records by the base form
`scheme://netloc` of their URL and stores the base form as the URL — on
the claim's example it yields exactly one record for `a.com` with URL
`https://a.com`, and in general every output record carries the domain of
some input record together with the base form of that record's URL.  In
`app.py` dedup instead retains, per netloc key, the FIRST input record
with that key, unchanged. -/
theorem dedupe_first_seen_amended :
    (dedupe_scrapper [⟨"a.com".toList, "https://a.com/x".toList⟩,
        ⟨"a.com".toList, "https://a.com/y".toList⟩]
      = [⟨"a.com".toList, "https://a.com".toList⟩])
    ∧ (∀ items r, r ∈ dedupe_app items →
        (items.filter (fun i => keyApp i == keyApp r)).head? = some r)
    ∧ (∀ items r, r ∈ dedupe_scrapper items →
        ∃ i ∈ items, r.Domain = i.Domain ∧ r.URL = baseURL i.URL) := by
  refine ⟨by decide, ?_, ?_⟩
  · intro items r hr
    rw [dedupe_app_eq_aux] at hr
    obtain ⟨p, hp, hpr⟩ := List.mem_map.mp hr
    obtain ⟨k, v⟩ := p
    cases hpr
    rcases dedupeAppAux_first items [] k v hp with h | ⟨_, hkv, hf⟩
    · cases h
    · rw [← hkv]
      exact hf
  · intro items r hr
    rw [dedupe_scrapper_eq_aux] at hr
    obtain ⟨p, hp, hpr⟩ := List.mem_map.mp hr
    rcases dedupeScrAux_mem items [] p hp with h | ⟨i, hi, he⟩
    · cases h
    · refine ⟨i, hi, ?_⟩
      rw [← hpr, he]
      exact ⟨rfl, rfl⟩

/-- C1 witness: the first-seen characterisation of `app.py`'s dedup,
instantiated at a concrete two-record input. -/
theorem dedupe_first_seen_amended_witness :
    ([⟨"a.com".toList, "https://a.com/x".toList, "t".toList⟩,
      ⟨"b.com".toList, "https://b.com/y".toList, "t".toList⟩].filter
        (fun i => keyApp i
          == keyApp ⟨"a.com".toList, "https://a.com/x".toList, "t".toList⟩)).head?
      = some ⟨"a.com".toList, "https://a.com/x".toList, "t".toList⟩ :=
  dedupe_first_seen_amended.2.1
    [⟨"a.com".toList, "https://a.com/x".toList, "t".toList⟩,
     ⟨"b.com".toList, "https://b.com/y".toList, "t".toList⟩]
    ⟨"a.com".toList, "https://a.com/x".toList, "t".toList⟩
    (by decide)

/-- C8 counterexample: the href `"http://"` passes every filter
(`startswith("http")`, no `google.`, no `webcache`, exclusion vacuous on
the empty domain) yet `urlparse` gives it an EMPTY netloc, so a record
with an empty domain is produced — in both variants. -/
theorem extraction_empty_domain :
    (extractPage [some ("http://".toList)]).map (·.Domain) = [[]]
    ∧ (extractPage_app [(some ("http://".toList), [])]).map (·.Domain) = [[]] := by
  exact ⟨by decide, by decide⟩

/-- C8 (amended): every record produced by the extraction step carries, as
its domain, exactly the lower-cased netloc of its URL — hence the domain
is entirely lower-case — but it is NOT always non-empty (see the
counterexample): hrefs without a host yield an empty domain. -/
theorem extraction_domain_amended :
    (∀ links r, r ∈ extractPage links →
      r.Domain = (urlparse_netloc r.URL).map pyLower
        ∧ r.Domain.map pyLower = r.Domain)
    ∧ (∀ links r, r ∈ extractPage_app links →
      r.Domain = (urlparse_netloc r.URL).map pyLower
        ∧ r.Domain.map pyLower = r.Domain) := by
  constructor
  · intro links r hr
    rw [extractPage] at hr
    obtain ⟨h, hmem, hsome⟩ := List.mem_filterMap.mp hr
    cases h with
    | none => cases hsome
    | some href =>
      dsimp only at hsome
      split at hsome
      · split at hsome
        · cases hsome
        · obtain rfl : (⟨(urlparse_netloc href).map pyLower, href⟩ : SearchResult) = r :=
            Option.some.inj hsome
          exact ⟨rfl, map_pyLower_idem _⟩
      · cases hsome
  · intro links r hr
    rw [extractPage_app] at hr
    obtain ⟨h, hmem, hsome⟩ := List.mem_filterMap.mp hr
    obtain ⟨href?, text⟩ := h
    cases href? with
    | none => cases hsome
    | some href =>
      dsimp only at hsome
      split at hsome
      · split at hsome
        · cases hsome
        · have he := Option.some.inj hsome
          subst he
          exact ⟨rfl, map_pyLower_idem _⟩
      · cases hsome

/-- C8 witness: a concrete accepted link with a mixed-case netloc. -/
theorem extraction_domain_amended_witness :
    (⟨"a.com".toList, "https://A.com/x".toList⟩ : SearchResult).Domain
      = (urlparse_netloc
          (⟨"a.com".toList, "https://A.com/x".toList⟩ : SearchResult).URL).map pyLower
    ∧ ((⟨"a.com".toList, "https://A.com/x".toList⟩ : SearchResult).Domain).map pyLower
      = (⟨"a.com".toList, "https://A.com/x".toList⟩ : SearchResult).Domain :=
  extraction_domain_amended.1 [some ("https://A.com/x".toList)]
    ⟨"a.com".toList, "https://A.com/x".toList⟩ (by decide)

/-! ### Structure of the normalizer's intermediate values -/

theorem normalize_eq_host (u : List Char) :
    normalize_url_for_compare u
      = pyStrip (if (hostPart u).contains ':'
          then (hostPart u).takeWhile (· != ':') else (hostPart u)) := rfl

theorem takeWhile_front {α : Type} (p : α → Bool) (l : List α) :
    l.takeWhile p <+: l :=
  ⟨l.dropWhile p, List.takeWhile_append_dropWhile p l⟩

theorem stripScheme_subset (s : List Char) : stripScheme s ⊆ s := by
  intro c hc
  rw [stripScheme] at hc
  split at hc
  · exact (List.drop_sublist _ _).subset hc
  · split at hc
    · exact (List.drop_sublist _ _).subset hc
    · exact hc

theorem stripScheme_suff (s : List Char) : stripScheme s <:+ s := by
  rw [stripScheme]
  split
  · exact List.drop_suffix _ _
  · split
    · exact List.drop_suffix _ _
    · exact List.suffix_refl _

theorem hostPart_subset_lower (u : List Char) :
    hostPart u ⊆ (pyStrip u).map pyLower := by
  intro c hc
  simp only [hostPart] at hc
  have hc3 : c ∈ ((stripScheme ((pyStrip u).map pyLower)).takeWhile (· != '/')
      |>.takeWhile (· != '?')).takeWhile (· != '#') := by
    split at hc
    · exact (List.drop_sublist _ _).subset hc
    · exact hc
  exact stripScheme_subset _
    ((List.takeWhile_sublist _).subset
      ((List.takeWhile_sublist _).subset ((List.takeWhile_sublist _).subset hc3)))

theorem hostPart_no_seps (u : List Char) :
    ∀ c ∈ hostPart u, c ≠ '/' ∧ c ≠ '?' ∧ c ≠ '#' := by
  intro c hc
  simp only [hostPart] at hc
  have hc3 : c ∈ ((stripScheme ((pyStrip u).map pyLower)).takeWhile (· != '/')
      |>.takeWhile (· != '?')).takeWhile (· != '#') := by
    split at hc
    · exact (List.drop_sublist _ _).subset hc
    · exact hc
  have h3 := List.mem_takeWhile_imp hc3
  have hc2 := (List.takeWhile_sublist _).subset hc3
  have h2 := List.mem_takeWhile_imp hc2
  have hc1 := (List.takeWhile_sublist _).subset hc2
  have h1 := List.mem_takeWhile_imp hc1
  refine ⟨?_, ?_, ?_⟩
  · simpa using h1
  · simpa using h2
  · simpa using h3

/-- Every character of a normalized value comes from the lower-cased
trimmed input and is none of the separators the normalizer cuts at. -/
theorem normalize_chars (u : List Char) :
    ∀ c ∈ normalize_url_for_compare u, c ∈ (pyStrip u).map pyLower
      ∧ c ≠ '/' ∧ c ≠ '?' ∧ c ≠ '#' ∧ c ≠ ':' := by
  intro c hc
  rw [normalize_eq_host] at hc
  have hc5 := pyStrip_subset _ hc
  by_cases hcol : (hostPart u).contains ':' = true
  · rw [if_pos hcol] at hc5
    have hne := List.mem_takeWhile_imp hc5
    have hhost : c ∈ hostPart u := (List.takeWhile_sublist _).subset hc5
    have hseps := hostPart_no_seps u c hhost
    exact ⟨hostPart_subset_lower u hhost, hseps.1, hseps.2.1, hseps.2.2,
      by simpa using hne⟩
  · rw [if_neg hcol] at hc5
    have hseps := hostPart_no_seps u c hc5
    have hcol2 : c ≠ ':' := by
      intro he
      subst he
      exact hcol (contains_eq_true_iff.mpr hc5)
    exact ⟨hostPart_subset_lower u hc5, hseps.1, hseps.2.1, hseps.2.2, hcol2⟩

/-- C9: the normalizer is total by construction (it is a plain function —
Python-side, every step is exception-free), maps the empty string to the
empty string, and always returns a contiguous substring of the lower-cased
input, which is the precise sense of "degrades to a best-effort
substring". -/
theorem normalize_total_empty_substring :
    normalize_url_for_compare [] = []
    ∧ (∀ u, normalize_url_for_compare u <:+: u.map pyLower) := by
  constructor
  · rfl
  · intro u
    rw [normalize_eq_host]
    have h5 : pyStrip (if (hostPart u).contains ':'
        then (hostPart u).takeWhile (· != ':') else (hostPart u))
        <:+: (hostPart u) := by
      refine (pyStrip_substring _).trans ?_
      split
      · exact List.IsPrefix.isInfix (takeWhile_front _ _)
      · exact List.infix_refl _
    have hhost : hostPart u <:+: (pyStrip u).map pyLower := by
      simp only [hostPart]
      have h3 : ((stripScheme ((pyStrip u).map pyLower)).takeWhile (· != '/')
          |>.takeWhile (· != '?')).takeWhile (· != '#')
          <:+: stripScheme ((pyStrip u).map pyLower) :=
        List.IsPrefix.isInfix
          ((takeWhile_front _ _).trans ((takeWhile_front _ _).trans (takeWhile_front _ _)))
      refine ( ?_ : _ <:+: _).trans
        ((h3.trans (List.IsSuffix.isInfix (stripScheme_suff _))))
      split
      · exact List.IsSuffix.isInfix (List.drop_suffix _ _)
      · exact List.infix_refl _
    have hlast : (pyStrip u).map pyLower <:+: u.map pyLower :=
      List.IsInfix.map pyLower (pyStrip_substring u)
    exact h5.trans (hhost.trans hlast)

/-- A string that is already trimmed, lower-cased, separator-free and not
`www.`-prefixed is a fixed point of the normalizer. -/
theorem normalize_fixed {s : List Char}
    (hstrip : pyStrip s = s)
    (hlower : s.map pyLower = s)
    (hsep : ∀ c ∈ s, c ≠ '/' ∧ c ≠ '?' ∧ c ≠ '#' ∧ c ≠ ':')
    (hwww : ("www.".toList).isPrefixOf s = false) :
    normalize_url_for_compare s = s := by
  have hs1 : (pyStrip s).map pyLower = s := by rw [hstrip, hlower]
  have hh1 : ("http://".toList).isPrefixOf s = false := by
    cases hcase : ("http://".toList).isPrefixOf s
    · rfl
    · exact absurd rfl (hsep '/' (mem_of_isPrefixOfTrue hcase '/' (by decide))).1
  have hh2 : ("https://".toList).isPrefixOf s = false := by
    cases hcase : ("https://".toList).isPrefixOf s
    · rfl
    · exact absurd rfl (hsep '/' (mem_of_isPrefixOfTrue hcase '/' (by decide))).1
  have hscheme : stripScheme s = s := by
    rw [stripScheme, hh1, hh2]
    simp
  have htw1 : s.takeWhile (· != '/') = s :=
    takeWhile_eq_self_of_all (fun a ha => by simpa using (hsep a ha).1)
  have htw2 : s.takeWhile (· != '?') = s :=
    takeWhile_eq_self_of_all (fun a ha => by simpa using (hsep a ha).2.1)
  have htw3 : s.takeWhile (· != '#') = s :=
    takeWhile_eq_self_of_all (fun a ha => by simpa using (hsep a ha).2.2.1)
  have hcol : s.contains ':' = false := by
    cases hcase : s.contains ':'
    · rfl
    · exact absurd rfl (hsep ':' (contains_eq_true_iff.mp hcase)).2.2.2
  show pyStrip _ = s
  rw [hs1, hscheme, htw1, htw2, htw3, hwww]
  simp only [Bool.false_eq_true, if_false]
  rw [hcol]
  simp only [Bool.false_eq_true, if_false]
  exact hstrip

/-- C3 counterexample: the normalizer strips only ONE leading `www.` per
application, so it is not idempotent on `www.www.example.com`. -/
theorem normalize_idem_counterexample :
    normalize_url_for_compare
        (normalize_url_for_compare ("www.www.example.com".toList))
      ≠ normalize_url_for_compare ("www.www.example.com".toList) := by decide

/-- C3 (amended): the normalizer is idempotent on every input whose
normalized form does not itself start with `www.`; when it does (which
requires a double `www.www.` in the input's host), a second application
strips one more `www.` prefix. -/
theorem normalize_idem_amended (u : List Char)
    (h : ("www.".toList).isPrefixOf (normalize_url_for_compare u) = false) :
    normalize_url_for_compare (normalize_url_for_compare u)
      = normalize_url_for_compare u := by
  have hstrip : pyStrip (normalize_url_for_compare u)
      = normalize_url_for_compare u := by
    rw [normalize_eq_host]
    exact pyStrip_idem _
  have hlower : (normalize_url_for_compare u).map pyLower
      = normalize_url_for_compare u := by
    apply list_map_eq_self_of_fixed
    intro a ha
    obtain ⟨hmem, _⟩ := normalize_chars u a ha
    obtain ⟨b, hb, rfl⟩ := List.mem_map.mp hmem
    exact pyLower_idem b
  exact normalize_fixed hstrip hlower
    (fun c hc => (normalize_chars u c hc).2) h

/-- C3 witness: idempotence at a concrete URL whose normal form does not
start with `www.`. -/
theorem normalize_idem_amended_witness :
    normalize_url_for_compare
        (normalize_url_for_compare ("https://WWW.Example.com:8080/a?b=1#c".toList))
      = normalize_url_for_compare ("https://WWW.Example.com:8080/a?b=1#c".toList) :=
  normalize_idem_amended ("https://WWW.Example.com:8080/a?b=1#c".toList) (by decide)

/-! ### The normalizer versus the spec's wording (§4.1) -/

theorem sep_pred_eq :
    (fun c : Char => !(c == '/' || c == '?' || c == '#'))
      = fun c : Char => (((c != '/') && (c != '?')) && (c != '#')) := by
  funext c
  simp only [bne]
  cases c == '/' <;> cases c == '?' <;> cases c == '#' <;> rfl

theorem normalize_spec_eq_host (u : List Char) :
    normalize_spec u
      = (if (hostPart u).contains ':'
          then dropTrailingPort (hostPart u) else hostPart u) := by
  have hcommute := pyStrip_map_pyLower u
  simp only [normalize_spec, hostPart, hcommute, sep_pred_eq,
    ← takeWhile_takeWhile_bool]

theorem hostPart_no_ws (u : List Char)
    (hws : ∀ c ∈ pyStrip u, pyIsSpace c = false) :
    ∀ c ∈ hostPart u, pyIsSpace c = false := by
  intro c hc
  obtain ⟨b, hb, rfl⟩ := List.mem_map.mp (hostPart_subset_lower u hc)
  rw [pyIsSpace_pyLower]
  exact hws b hb

theorem first_colon_split {l : List Char} (hc : l.contains ':' = true) :
    ∃ a b, l = a ++ ':' :: b ∧ (∀ x ∈ a, x ≠ ':') := by
  have hmem : ':' ∈ l := contains_eq_true_iff.mp hc
  refine ⟨l.takeWhile (· != ':'), (l.dropWhile (· != ':')).tail, ?_, ?_⟩
  · have hd : l.dropWhile (· != ':') ≠ [] := by
      intro he
      have hall := List.dropWhile_eq_nil_iff.mp he
      have h2 := hall ':' hmem
      simp at h2
    obtain ⟨x, t, he⟩ : ∃ x t, l.dropWhile (· != ':') = x :: t := by
      cases hcase : l.dropWhile (· != ':') with
      | nil => exact absurd hcase hd
      | cons x t => exact ⟨x, t, rfl⟩
    have hx : x = ':' := by
      have hh := List.head?_dropWhile_not (· != ':') l
      rw [he] at hh
      simpa using hh
    subst hx
    conv_lhs => rw [← List.takeWhile_append_dropWhile (· != ':') l]
    rw [he]
    rfl
  · intro x hx
    have := List.mem_takeWhile_imp hx
    simpa using this

theorem port_cut_eq (a b : List Char)
    (ha : ∀ x ∈ a, x ≠ ':') (hb : ':' ∉ b) :
    (a ++ ':' :: b).takeWhile (· != ':') = a
      ∧ dropTrailingPort (a ++ ':' :: b) = a := by
  constructor
  · rw [List.takeWhile_append_of_pos (fun x hx => by simpa using ha x hx)]
    simp
  · rw [dropTrailingPort, List.reverse_append, List.reverse_cons,
      List.append_assoc, List.singleton_append]
    have hpos : ∀ x ∈ b.reverse, (x != ':') = true := by
      intro x hx
      have hxb : x ∈ b := List.mem_reverse.mp hx
      have hne : x ≠ ':' := fun he => hb (he ▸ hxb)
      simpa using hne
    rw [List.dropWhile_append_of_pos hpos]
    rw [List.dropWhile_cons_of_neg (by simp)]
    simp

/-- C4: on whitespace-free trimmed inputs whose host part has at most one
colon (all well-formed non-IPv6 URLs), the normalizer agrees with the
spec's step-by-step description (`normalize_spec`), and on the spec's own
example it returns `example.com`. -/
theorem normalize_matches_spec :
    (∀ u, (∀ c ∈ pyStrip u, pyIsSpace c = false) →
        (hostPart u).count ':' ≤ 1 →
        normalize_url_for_compare u = normalize_spec u)
    ∧ normalize_url_for_compare ("https://WWW.Example.com:8080/a?b=1#c".toList)
        = "example.com".toList := by
  constructor
  · intro u hws hcount
    rw [normalize_eq_host, normalize_spec_eq_host]
    have hnows := hostPart_no_ws u hws
    by_cases hcol : (hostPart u).contains ':' = true
    · rw [if_pos hcol, if_pos hcol]
      obtain ⟨a, b, he, ha⟩ := first_colon_split hcol
      have hnotina : ':' ∉ a := fun hmem => (ha ':' hmem) rfl
      have hb : ':' ∉ b := by
        have hca : a.count ':' = 0 := List.count_eq_zero_of_not_mem hnotina
        rw [he, List.count_append, List.count_cons_self, hca] at hcount
        have hzero : b.count ':' = 0 := by omega
        exact List.count_eq_zero.mp hzero
      obtain ⟨hcut1, hcut2⟩ := port_cut_eq a b ha hb
      rw [he, hcut1, hcut2]
      apply pyStrip_eq_self_of_no_ws
      intro c hc
      apply hnows
      rw [he]
      exact List.mem_append.mpr (Or.inl hc)
    · rw [if_neg hcol, if_neg hcol]
      exact pyStrip_eq_self_of_no_ws hnows
  · decide

/-- C4 witness: code and spec description agree on the spec's example. -/
theorem normalize_matches_spec_witness :
    normalize_url_for_compare ("https://WWW.Example.com:8080/a?b=1#c".toList)
      = normalize_spec ("https://WWW.Example.com:8080/a?b=1#c".toList) :=
  normalize_matches_spec.1 ("https://WWW.Example.com:8080/a?b=1#c".toList)
    (by decide) (by decide)
